import Mathlib

/-!
Verification of the peer-to-peer protocol engine of the p9c/parallelcoin
repository (package `peer`).  The Go source is shallowly embedded below:
pure helper functions become Lean functions, and the per-peer goroutines
(queue handler, stall handler, input handler) become explicit
state-transition functions on small state records.  Machine integers are
modelled as `Nat`/`Int`; the `uint32` cast of an `int32` is taken modulo
`2 ^ 32` where it matters.  Parts of the repository that only have callers
among the provided sources (the `wire` message constructors and the bounded
MRU maps) are modelled from the specification and marked as such.
-/

namespace PeerSpec

/-- wire.InvType: inventory vector types the peer engine distinguishes.
The engine only branches on block vs witness-block vs everything else. -/
inductive InvType where
  | tx
  | block
  | filteredBlock
  | witnessTx
  | witnessBlock
  | witnessFilteredBlock
  deriving DecidableEq, Repr

/-- wire.InvVect: a {type, hash} pair.  The 32-byte hash is modelled as a
natural number; only equality of hashes matters to the peer engine. -/
structure InvVect where
  typ : InvType
  hash : Nat
  deriving DecidableEq, Repr

/-- Source constant `maxInvTrickleSize = 5000`: the maximum amount of
inventory to send in a single inv message when trickling. -/
def maxInvTrickleSize : Nat := 5000

/-- Source constant `maxKnownInventory = 30000`: the maximum number of items
kept in the known inventory cache. -/
def maxKnownInventory : Nat := 30000

/-- Source constant `stallResponseTimeout = 360 * time.Second`, in seconds. -/
def stallResponseTimeout : Nat := 360

/-- Source constant `MinAcceptableProtocolVersion = 1`. -/
def minAcceptableProtocolVersion : Nat := 1

/-- Modelled from the spec: `wire.MaxAddrPerMsg = 1000` (the `wire` package
implementation is not among the provided source files; the spec fixes
`MAX_ADDR_PER_MSG` at 1000). -/
def maxAddrPerMsg : Nat := 1000

/-- A pending-response map of the stall handler: Go `map[string]time.Time`,
modelled as a function from command strings to optional deadlines in unix
seconds. -/
def PendingMap : Type := String → Option Nat

/-- Insertion `pendingResponses[k] = v` on a Go map, as a function update. -/
def setPending (m : PendingMap) (k : String) (v : Nat) : PendingMap :=
  fun c => if c = k then some v else m c

/-- Go `delete(pendingResponses, k)`, as a function update. -/
def delPending (m : PendingMap) (k : String) : PendingMap :=
  fun c => if c = k then none else m c

/-- Translation of `Peer.maybeAddDeadline`: potentially adds a deadline for
the appropriate expected response for the passed wire protocol command to
the pending responses map.  `now` is the current unix time in seconds. -/
def maybeAddDeadline (now : Nat) (m : PendingMap) (msgCmd : String) : PendingMap :=
  let deadline := now + stallResponseTimeout
  if msgCmd = "version" then
    setPending m "verack" deadline
  else if msgCmd = "mempool" then
    setPending m "inv" deadline
  else if msgCmd = "getblocks" then
    setPending m "inv" deadline
  else if msgCmd = "getdata" then
    setPending (setPending (setPending (setPending m
      "block" deadline) "merkleblock" deadline) "tx" deadline) "notfound" deadline
  else if msgCmd = "getheaders" then
    setPending m "headers" (now + stallResponseTimeout * 3)
  else m

/-- Translation of the `sccReceiveMessage` case of `Peer.stallHandler`:
received messages are removed from the expected-response map, and since
certain commands expect one of a group of responses, everything in the
expected group is removed accordingly. -/
def stallReceive (m : PendingMap) (msgCmd : String) : PendingMap :=
  if msgCmd = "block" ∨ msgCmd = "merkleblock" ∨ msgCmd = "tx" ∨ msgCmd = "notfound" then
    delPending (delPending (delPending (delPending m
      "block") "merkleblock") "tx") "notfound"
  else delPending m msgCmd

/-- C3: in the stall handler, sending a getdata message adds
pending-response deadlines of now + 360 s for each of the four commands
block, merkleblock, tx and notfound; sending a getheaders message adds a
deadline of now + 1080 s (three times the 360 s base) for headers; and
receiving any one of block, merkleblock, tx or notfound removes all four of
those pending entries at once. -/
theorem c3_stall_deadlines (now : Nat) (m : PendingMap) :
    (maybeAddDeadline now m "getdata" "block" = some (now + 360) ∧
      maybeAddDeadline now m "getdata" "merkleblock" = some (now + 360) ∧
      maybeAddDeadline now m "getdata" "tx" = some (now + 360) ∧
      maybeAddDeadline now m "getdata" "notfound" = some (now + 360)) ∧
    (maybeAddDeadline now m "getheaders" "headers" = some (now + 1080) ∧
      1080 = 3 * stallResponseTimeout) ∧
    (∀ c : String, (c = "block" ∨ c = "merkleblock" ∨ c = "tx" ∨ c = "notfound") →
      stallReceive m c "block" = none ∧
      stallReceive m c "merkleblock" = none ∧
      stallReceive m c "tx" = none ∧
      stallReceive m c "notfound" = none) := by
  refine ⟨⟨?_, ?_, ?_, ?_⟩, ⟨?_, by decide⟩, ?_⟩ <;>
    try simp [maybeAddDeadline, setPending, stallResponseTimeout]
  simp [stallReceive, delPending]

/-- Witness for C3 at a concrete input: the empty pending map after sending
getdata holds a block deadline of 360, and receiving a tx clears the block
entry. -/
theorem c3_stall_deadlines_witness :
    maybeAddDeadline 0 (fun _ => none) "getdata" "block" = some 360 ∧
      stallReceive (maybeAddDeadline 0 (fun _ => none) "getdata") "tx" "block" = none := by
  refine ⟨?_, ?_⟩
  · exact (c3_stall_deadlines 0 (fun _ => none)).1.1
  · exact ((c3_stall_deadlines 0 (fun _ => none)).2.2 "tx" (by simp)).1

/-- Modelled from the spec: membership test (`Exists`) of the bounded
most-recently-used known-inventory map `mruInventoryMap` (cap 30 000 per
peer), whose implementation is not among the provided source files.  The
map is modelled as a list of inventory vectors, most recent first. -/
def mruExists (m : List InvVect) (iv : InvVect) : Bool :=
  decide (iv ∈ m)

/-- Modelled from the spec: insertion (`Add`) into the bounded MRU
known-inventory map.  On insert at capacity the least-recently-used entry
(the last of the list) is evicted; inserting a present entry leaves the map
unchanged. -/
def mruAdd (m : List InvVect) (iv : InvVect) : List InvVect :=
  if iv ∈ m then m else (iv :: m).take maxKnownInventory

/-- State touched by the inventory path of the peer: the known-inventory MRU
map, the `invSendQueue` list owned by `queueHandler`, and the inv messages
handed to the output machinery so far (each an `InvList`), in order.
Queuing via `queuePacket` and actually writing are observationally the same
for the claims below, so `sent` records messages as they are queued. -/
structure InvState where
  known : List InvVect
  invSendQueue : List InvVect
  sent : List (List InvVect)
  deriving DecidableEq, Repr

/-- Translation of `Peer.QueueInventory` fused with the `outputInvChan`
case of `Peer.queueHandler` (the channel merely serializes the two):
a vector already in the known-inventory set is dropped, a vector for a dead
peer is dropped, a vector before the handshake is dropped; block-type and
witness-block-type vectors bypass trickling and are queued immediately as a
single-entry inv message; all other vectors are appended to the inventory
send queue. -/
def queueInventory (connected versionKnown : Bool) (s : InvState) (iv : InvVect) : InvState :=
  if mruExists s.known iv then s
  else if !connected then s
  else if !versionKnown then s
  else if iv.typ = InvType.block ∨ iv.typ = InvType.witnessBlock then
    { s with sent := s.sent ++ [[iv]] }
  else
    { s with invSendQueue := s.invSendQueue ++ [iv] }

/-- Translation of the drain loop of the trickle-tick case of
`Peer.queueHandler`: pop vectors off the inventory send queue, skipping
those that became known after the initial check, flushing an inv message
whenever it reaches `maxInvTrickleSize` entries, adding each relayed vector
to the known inventory, and queueing the final message if non-empty.
Returns the queued inv messages in order and the final known-inventory
map. -/
def drainLoop (known : List InvVect) (cur : List InvVect) :
    List InvVect → List (List InvVect) × List InvVect
  | [] => (if cur.isEmpty then [] else [cur], known)
  | iv :: rest =>
    if mruExists known iv then drainLoop known cur rest
    else
      let cur2 := cur ++ [iv]
      if maxInvTrickleSize ≤ cur2.length then
        let r := drainLoop (mruAdd known iv) [] rest
        (cur2 :: r.1, r.2)
      else
        drainLoop (mruAdd known iv) cur2 rest

/-- Translation of the trickle-tick case of `Peer.queueHandler`: nothing is
sent when disconnecting or when no inventory is queued; otherwise the
inventory send queue is drained into inv messages. -/
def trickleTick (disconnecting : Bool) (s : InvState) : InvState :=
  if disconnecting ∨ s.invSendQueue.isEmpty then s
  else
    let r := drainLoop s.known [] s.invSendQueue
    { known := r.2, invSendQueue := [], sent := s.sent ++ r.1 }

/-- The inv messages queued by one trickle tick (the suffix `trickleTick`
appends to `sent`). -/
def tickEmitted (disconnecting : Bool) (s : InvState) : List (List InvVect) :=
  (trickleTick disconnecting s).sent.drop s.sent.length

/-- When the map is strictly below capacity, MRU insertion of a fresh
vector is plain consing. -/
theorem mruAdd_eq_cons {m : List InvVect} {iv : InvVect}
    (hmem : iv ∉ m) (hlen : m.length < maxKnownInventory) :
    mruAdd m iv = iv :: m := by
  rw [mruAdd, if_neg hmem]
  exact List.take_of_length_le (by simpa using hlen)

/-- A vector already known is skipped by the drain loop. -/
theorem drainLoop_cons_skip {known : List InvVect} {iv : InvVect}
    (cur rest : List InvVect) (h : iv ∈ known) :
    drainLoop known cur (iv :: rest) = drainLoop known cur rest := by
  simp [drainLoop, mruExists, h]

/-- An unknown vector that fills the current message to the trickle limit
flushes that message. -/
theorem drainLoop_cons_flush {known : List InvVect} {iv : InvVect}
    {cur : List InvVect} (rest : List InvVect) (h : iv ∉ known)
    (hf : maxInvTrickleSize ≤ (cur ++ [iv]).length) :
    drainLoop known cur (iv :: rest) =
      ((cur ++ [iv]) :: (drainLoop (mruAdd known iv) [] rest).1,
        (drainLoop (mruAdd known iv) [] rest).2) := by
  have hm : ¬ (mruExists known iv = true) := by simp [mruExists, h]
  simp only [drainLoop]
  rw [if_neg hm, if_pos hf]

/-- An unknown vector below the trickle limit is appended to the current
message. -/
theorem drainLoop_cons_go {known : List InvVect} {iv : InvVect}
    {cur : List InvVect} (rest : List InvVect) (h : iv ∉ known)
    (hf : ¬ maxInvTrickleSize ≤ (cur ++ [iv]).length) :
    drainLoop known cur (iv :: rest) =
      drainLoop (mruAdd known iv) (cur ++ [iv]) rest := by
  have hm : ¬ (mruExists known iv = true) := by simp [mruExists, h]
  simp only [drainLoop]
  rw [if_neg hm, if_neg hf]

/-- Workhorse for the trickle drain: as long as no MRU eviction can occur,
the drained messages jointly contain `cur` followed by a duplicate-free
list `acc` of vectors, none of which was previously known, and the final
known-inventory map is exactly the old one with `acc` pushed on top. -/
theorem drain_join_spec (q : List InvVect) :
    ∀ (known cur : List InvVect),
      known.length + q.length ≤ maxKnownInventory →
      ∃ acc : List InvVect,
        (drainLoop known cur q).1.flatten = cur ++ acc ∧
        (drainLoop known cur q).2 = acc.reverse ++ known ∧
        acc.Nodup ∧
        ∀ x ∈ acc, x ∉ known := by
  induction q with
  | nil =>
    intro known cur _
    refine ⟨[], ?_, by simp [drainLoop], by simp, by simp⟩
    by_cases h : cur.isEmpty
    · simp [drainLoop, h, List.isEmpty_iff.mp h]
    · simp [drainLoop, h]
  | cons iv rest ih =>
    intro known cur hbound
    simp only [List.length_cons] at hbound
    by_cases hk : iv ∈ known
    · obtain ⟨acc, h1, h2, h3, h4⟩ := ih known cur (by omega)
      exact ⟨acc, by rw [drainLoop_cons_skip cur rest hk]; exact h1,
        by rw [drainLoop_cons_skip cur rest hk]; exact h2, h3, h4⟩
    · have hadd : mruAdd known iv = iv :: known :=
        mruAdd_eq_cons hk (by omega)
      by_cases hflush : maxInvTrickleSize ≤ (cur ++ [iv]).length
      · obtain ⟨acc, h1, h2, h3, h4⟩ := ih (iv :: known) [] (by simp; omega)
        rw [drainLoop_cons_flush rest hk hflush, hadd]
        refine ⟨iv :: acc, ?_, ?_, ?_, ?_⟩
        · simp [h1]
        · simp [h2]
        · refine List.nodup_cons.mpr ⟨fun hin => ?_, h3⟩
          exact (h4 iv hin) (List.mem_cons_self _ _)
        · intro x hx
          rcases List.mem_cons.mp hx with rfl | hx
          · exact hk
          · exact fun hxk => (h4 x hx) (List.mem_cons_of_mem _ hxk)
      · obtain ⟨acc, h1, h2, h3, h4⟩ := ih (iv :: known) (cur ++ [iv]) (by simp; omega)
        rw [drainLoop_cons_go rest hk hflush, hadd]
        refine ⟨iv :: acc, ?_, ?_, ?_, ?_⟩
        · simp [h1]
        · simp [h2]
        · refine List.nodup_cons.mpr ⟨fun hin => ?_, h3⟩
          exact (h4 iv hin) (List.mem_cons_self _ _)
        · intro x hx
          rcases List.mem_cons.mp hx with rfl | hx
          · exact hk
          · exact fun hxk => (h4 x hx) (List.mem_cons_of_mem _ hxk)

/-- A tick that is skipped (disconnecting, or no queued inventory) changes
nothing and emits nothing. -/
theorem trickleTick_skip (d : Bool) (s : InvState)
    (h : d = true ∨ s.invSendQueue = []) :
    trickleTick d s = s ∧ tickEmitted d s = [] := by
  have hc : (d = true ∨ s.invSendQueue.isEmpty = true) := by
    simpa [List.isEmpty_iff] using h
  have ht : trickleTick d s = s := by
    simp only [trickleTick]
    rw [if_pos hc]
  exact ⟨ht, by rw [tickEmitted, ht, List.drop_length]⟩

/-- A tick that is not skipped drains the queue: the emitted messages and
the resulting known map are those of the drain loop. -/
theorem trickleTick_drain (d : Bool) (s : InvState)
    (h : ¬ (d = true ∨ s.invSendQueue = [])) :
    tickEmitted d s = (drainLoop s.known [] s.invSendQueue).1 ∧
      (trickleTick d s).known = (drainLoop s.known [] s.invSendQueue).2 := by
  have hc : ¬ (d = true ∨ s.invSendQueue.isEmpty = true) := by
    simpa [List.isEmpty_iff] using h
  have ht : trickleTick d s =
      { known := (drainLoop s.known [] s.invSendQueue).2, invSendQueue := [],
        sent := s.sent ++ (drainLoop s.known [] s.invSendQueue).1 } := by
    simp only [trickleTick]
    rw [if_neg hc]
  exact ⟨by rw [tickEmitted, ht]; exact List.drop_left _ _, by rw [ht]⟩

/-- C1, counterexample: a block-type inventory vector handed twice to
`QueueInventory` on a fresh peer is emitted twice (once per call, via the
direct fast path), and after being sent it is still not in the
known-inventory set — the fast path never calls `AddKnownInventory`.
This falsifies both "emitted at most once over the peer's lifetime" and
"every vector that is sent is in the known-inventory set afterwards" for
block-type vectors. -/
theorem c1_block_fastpath_cex :
    ((queueInventory true true
        (queueInventory true true ⟨[], [], []⟩ ⟨InvType.block, 7⟩)
        ⟨InvType.block, 7⟩).sent.map
          (fun m => m.count (⟨InvType.block, 7⟩ : InvVect))).sum = 2 ∧
      mruExists (queueInventory true true
        (queueInventory true true ⟨[], [], []⟩ ⟨InvType.block, 7⟩)
        ⟨InvType.block, 7⟩).known ⟨InvType.block, 7⟩ = false := by
  constructor <;> rfl

/-- C1, amended: a vector already in the per-peer known-inventory set is
never queued or sent, by `QueueInventory` of any type; and, while no MRU
eviction can occur, a trickle tick never emits a vector that was already
known, every vector it emits is in the known-inventory set afterwards, and
no vector is emitted twice within the tick.  Hence a trickled (non-block)
vector is emitted at most once for as long as it stays in the bounded
known-inventory cache.  Block-type and witness-block-type vectors take the
direct fast path, which does not update the known-inventory set, and so may
be emitted more than once (see the counterexample). -/
theorem c1_inventory_dedup :
    (∀ (c vk : Bool) (s : InvState) (iv : InvVect),
      mruExists s.known iv = true → queueInventory c vk s iv = s) ∧
    (∀ (d : Bool) (s : InvState) (iv : InvVect),
      s.known.length + s.invSendQueue.length ≤ maxKnownInventory →
      iv ∈ s.known → iv ∉ (tickEmitted d s).flatten) ∧
    (∀ (d : Bool) (s : InvState) (iv : InvVect),
      s.known.length + s.invSendQueue.length ≤ maxKnownInventory →
      iv ∈ (tickEmitted d s).flatten → iv ∈ (trickleTick d s).known) ∧
    (∀ (d : Bool) (s : InvState),
      s.known.length + s.invSendQueue.length ≤ maxKnownInventory →
      ((tickEmitted d s).flatten).Nodup) := by
  refine ⟨?_, ?_, ?_, ?_⟩
  · intro c vk s iv h
    simp [queueInventory, h]
  · intro d s iv hb hks
    by_cases hskip : d = true ∨ s.invSendQueue = []
    · simp [(trickleTick_skip d s hskip).2]
    · obtain ⟨acc, h1, h2, h3, h4⟩ := drain_join_spec s.invSendQueue s.known [] hb
      rw [(trickleTick_drain d s hskip).1, h1]
      simpa using fun hin => (h4 iv hin) hks
  · intro d s iv hb hiv
    by_cases hskip : d = true ∨ s.invSendQueue = []
    · rw [(trickleTick_skip d s hskip).2] at hiv
      simp at hiv
    · obtain ⟨acc, h1, h2, h3, h4⟩ := drain_join_spec s.invSendQueue s.known [] hb
      rw [(trickleTick_drain d s hskip).1, h1] at hiv
      rw [(trickleTick_drain d s hskip).2, h2]
      simp only [List.nil_append] at hiv
      exact List.mem_append_left _ (List.mem_reverse.mpr hiv)
  · intro d s hb
    by_cases hskip : d = true ∨ s.invSendQueue = []
    · rw [(trickleTick_skip d s hskip).2]
      simp
    · obtain ⟨acc, h1, h2, h3, h4⟩ := drain_join_spec s.invSendQueue s.known [] hb
      rw [(trickleTick_drain d s hskip).1, h1]
      simpa using h3

/-- Witness for C1 at concrete inputs: a known tx vector is dropped by
`QueueInventory`, and after a tick on a one-element queue the emitted
vector is known and was emitted without duplicates. -/
theorem c1_inventory_dedup_witness :
    (queueInventory true true ⟨[⟨InvType.tx, 3⟩], [], []⟩ ⟨InvType.tx, 3⟩
        = ⟨[⟨InvType.tx, 3⟩], [], []⟩) ∧
      (⟨InvType.tx, 5⟩ : InvVect) ∈
        (trickleTick false ⟨[], [⟨InvType.tx, 5⟩], []⟩).known ∧
      ((tickEmitted false ⟨[], [⟨InvType.tx, 5⟩], []⟩).flatten).Nodup := by
  refine ⟨?_, ?_, ?_⟩
  · exact c1_inventory_dedup.1 true true ⟨[⟨InvType.tx, 3⟩], [], []⟩ ⟨InvType.tx, 3⟩ (by decide)
  · exact c1_inventory_dedup.2.2.1 false ⟨[], [⟨InvType.tx, 5⟩], []⟩ ⟨InvType.tx, 5⟩
      (by decide) (by decide)
  · exact c1_inventory_dedup.2.2.2 false ⟨[], [⟨InvType.tx, 5⟩], []⟩ (by decide)

/-- The sizes of the inv messages produced by draining `n` fresh vectors
into a message currently holding `c` entries: flush at
`maxInvTrickleSize`, queue the non-empty remainder. -/
def chunkSizes : Nat → Nat → List Nat
  | c, 0 => if 0 < c then [c] else []
  | c, n + 1 =>
    if maxInvTrickleSize ≤ c + 1 then maxInvTrickleSize :: chunkSizes 0 n
    else chunkSizes (c + 1) n

/-- Every message the drain loop queues is non-empty and holds at most
`maxInvTrickleSize` entries. -/
theorem drain_msg_bounds (q : List InvVect) :
    ∀ (known cur : List InvVect), cur.length < maxInvTrickleSize →
      ∀ m ∈ (drainLoop known cur q).1, 0 < m.length ∧ m.length ≤ maxInvTrickleSize := by
  induction q with
  | nil =>
    intro known cur hcur m hm
    by_cases h : cur.isEmpty
    · simp [drainLoop, h] at hm
    · simp [drainLoop, h] at hm
      subst hm
      exact ⟨List.length_pos.mpr (by simpa [List.isEmpty_iff] using h), le_of_lt hcur⟩
  | cons iv rest ih =>
    intro known cur hcur m hm
    by_cases hk : iv ∈ known
    · rw [drainLoop_cons_skip cur rest hk] at hm
      exact ih known cur hcur m hm
    · by_cases hflush : maxInvTrickleSize ≤ (cur ++ [iv]).length
      · rw [drainLoop_cons_flush rest hk hflush] at hm
        rcases List.mem_cons.mp (by simpa using hm) with rfl | hm2
        · constructor
          · simp
          · simp only [List.length_append, List.length_cons, List.length_nil]
            omega
        · exact ih (mruAdd known iv) [] (by simp [maxInvTrickleSize]) m hm2
      · rw [drainLoop_cons_go rest hk hflush] at hm
        exact ih (mruAdd known iv) (cur ++ [iv]) (by simp at hflush ⊢; omega) m hm

/-- Draining a duplicate-free queue of fresh vectors produces messages of
exactly the chunked sizes. -/
theorem drain_sizes (q : List InvVect) :
    ∀ (known cur : List InvVect),
      known.length + q.length ≤ maxKnownInventory →
      q.Nodup → (∀ iv ∈ q, iv ∉ known) → cur.length < maxInvTrickleSize →
      (drainLoop known cur q).1.map List.length = chunkSizes cur.length q.length := by
  induction q with
  | nil =>
    intro known cur _ _ _ _
    by_cases h : cur.isEmpty
    · simp [drainLoop, chunkSizes, h, List.isEmpty_iff.mp h]
    · have : cur ≠ [] := by simpa [List.isEmpty_iff] using h
      simp [drainLoop, chunkSizes, h, List.length_pos.mpr this]
  | cons iv rest ih =>
    intro known cur hbound hnd hfresh hcur
    simp only [List.length_cons] at hbound
    have hk : iv ∉ known := hfresh iv (List.mem_cons_self _ _)
    have hadd : mruAdd known iv = iv :: known := mruAdd_eq_cons hk (by omega)
    have hfresh2 : ∀ x ∈ rest, x ∉ iv :: known := by
      intro x hx
      simp only [List.mem_cons, not_or]
      exact ⟨fun hxiv => (List.nodup_cons.mp hnd).1 (hxiv ▸ hx),
        fun hxk => hfresh x (List.mem_cons_of_mem _ hx) hxk⟩
    by_cases hflush : maxInvTrickleSize ≤ (cur ++ [iv]).length
    · have hlen : (cur ++ [iv]).length = maxInvTrickleSize := by
        simp only [List.length_append, List.length_cons, List.length_nil] at hflush ⊢
        omega
      rw [drainLoop_cons_flush rest hk hflush, hadd]
      have := ih (iv :: known) [] (by simp; omega) (List.nodup_cons.mp hnd).2 hfresh2
        (by simp [maxInvTrickleSize])
      simp only [List.map_cons, hlen, this, List.length_nil, List.length_cons]
      rw [chunkSizes]
      rw [if_pos (by simp only [List.length_append, List.length_cons, List.length_nil] at hflush; omega)]
    · rw [drainLoop_cons_go rest hk hflush, hadd]
      have := ih (iv :: known) (cur ++ [iv]) (by simp; omega) (List.nodup_cons.mp hnd).2 hfresh2
        (by simp at hflush ⊢; omega)
      rw [this]
      have hlen2 : (cur ++ [iv]).length = cur.length + 1 := by simp
      rw [hlen2, List.length_cons, chunkSizes]
      rw [if_neg (by simp at hflush; omega)]

/-- A batch that fits in one message yields a single message of the full
size. -/
theorem chunkSizes_small :
    ∀ (n c : Nat), 0 < c + n → c + n ≤ maxInvTrickleSize → chunkSizes c n = [c + n] := by
  intro n
  induction n with
  | zero =>
    intro c h1 _
    simp [chunkSizes]
    omega
  | succ n ih =>
    intro c h1 h2
    rw [chunkSizes]
    by_cases hf : maxInvTrickleSize ≤ c + 1
    · have hc : c + 1 = maxInvTrickleSize := by omega
      have hn : n = 0 := by omega
      subst hn
      rw [if_pos hf]
      simp [chunkSizes]
      omega
    · rw [if_neg hf, ih (c + 1) (by omega) (by omega)]
      have he : c + 1 + n = c + (n + 1) := by omega
      rw [he]

/-- A batch that overflows one message flushes a full message first. -/
theorem chunkSizes_flush :
    ∀ (n c : Nat), c < maxInvTrickleSize → maxInvTrickleSize ≤ c + n →
      chunkSizes c n = maxInvTrickleSize :: chunkSizes 0 (c + n - maxInvTrickleSize) := by
  intro n
  induction n with
  | zero =>
    intro c h1 h2
    omega
  | succ n ih =>
    intro c h1 h2
    rw [chunkSizes]
    by_cases hf : maxInvTrickleSize ≤ c + 1
    · rw [if_pos hf]
      have : c + (n + 1) - maxInvTrickleSize = n := by omega
      rw [this]
    · rw [if_neg hf, ih (c + 1) (by omega) (by omega)]
      have he : c + 1 + n - maxInvTrickleSize = c + (n + 1) - maxInvTrickleSize := by omega
      rw [he]

/-- The queue of 5001 pairwise distinct tx inventory vectors used in the
boundary scenario of C5. -/
def bigTrickleQueue : List InvVect :=
  (List.range 5001).map (fun n => ⟨InvType.tx, n⟩)

set_option maxRecDepth 100000 in
/-- C5: on a trickle tick the queued inventory is drained into inv messages
each containing at most 5000 entries, every resulting message queued for
sending is non-empty, and an inventory send queue holding 5001 entries none
of which is known yields exactly two inv messages, of sizes 5000 and 1. -/
theorem c5_trickle_chunks :
    (∀ (d : Bool) (s : InvState) (m : List InvVect),
      m ∈ tickEmitted d s → 0 < m.length ∧ m.length ≤ maxInvTrickleSize) ∧
    (tickEmitted false ⟨[], bigTrickleQueue, []⟩).map List.length = [5000, 1] := by
  constructor
  · intro d s m hm
    by_cases hskip : d = true ∨ s.invSendQueue = []
    · rw [(trickleTick_skip d s hskip).2] at hm
      simp at hm
    · rw [(trickleTick_drain d s hskip).1] at hm
      exact drain_msg_bounds s.invSendQueue s.known [] (by simp [maxInvTrickleSize]) m hm
  · have hlen : bigTrickleQueue.length = 5001 := by
      rw [bigTrickleQueue, List.length_map, List.length_range]
    have hqne : bigTrickleQueue ≠ [] := by
      intro h
      rw [h] at hlen
      simp at hlen
    have hne : ¬ ((false : Bool) = true ∨ bigTrickleQueue = []) := by
      simp [hqne]
    rw [(trickleTick_drain false ⟨[], bigTrickleQueue, []⟩ hne).1]
    have hnd : bigTrickleQueue.Nodup := by
      refine List.Nodup.map ?_ (List.nodup_range 5001)
      intro a b hab
      simpa using hab
    have := drain_sizes bigTrickleQueue [] [] (by rw [hlen]; simp [maxKnownInventory])
      hnd (by simp) (by simp [maxInvTrickleSize])
    rw [this, List.length_nil, hlen]
    rw [chunkSizes_flush 5001 0 (by simp [maxInvTrickleSize]) (by simp [maxInvTrickleSize])]
    norm_num [maxInvTrickleSize]
    rw [chunkSizes_small 1 0 (by omega) (by simp [maxInvTrickleSize])]

/-- Witness for C5 at a concrete input: a tick on a single-element queue
emits one message, which is non-empty and within the trickle limit. -/
theorem c5_trickle_chunks_witness :
    0 < ([⟨InvType.tx, 9⟩] : List InvVect).length ∧
      ([⟨InvType.tx, 9⟩] : List InvVect).length ≤ maxInvTrickleSize := by
  exact c5_trickle_chunks.1 false ⟨[], [⟨InvType.tx, 9⟩], []⟩ [⟨InvType.tx, 9⟩] (by decide)

/-- wire.RejectCode: the reject codes the peer engine uses. -/
inductive RejectCode where
  | malformed
  | invalid
  | obsolete
  | duplicate
  | nonstandard
  | dust
  | insufficientFee
  | checkpoint
  deriving DecidableEq, Repr

/-- wire.MsgReject — the fields the handshake path populates. -/
structure MsgReject where
  cmd : String
  code : RejectCode
  reason : String
  deriving DecidableEq, Repr

/-- wire.MsgVersion — the fields `readRemoteVersionMsg` consumes.
`protocolVersion` is the remote peer's advertised version, an `int32`;
`timestamp` is in unix seconds; `lastBlock` is an `int32`. -/
structure MsgVersion where
  protocolVersion : Int
  services : Nat
  timestamp : Int
  nonce : Nat
  userAgent : String
  lastBlock : Int
  deriving DecidableEq, Repr

/-- Translation of the source helper `minUint32`: the minimum of two
uint32s. -/
def minUint32 (a b : Nat) : Nat :=
  if a < b then a else b

/-- The Go conversion `uint32(x)` of an `int32` value: reduce modulo
`2 ^ 32` (a negative advertised version becomes a large uint32). -/
def uint32Cast (i : Int) : Nat :=
  (i % (2 ^ 32 : Int)).toNat

/-- The negotiated-state fields of a `Peer` read and written by
`readRemoteVersionMsg` (the flag fields guarded by `flagsMtx` and the stats
fields guarded by `statsMtx`).  `protocolVersion` starts out as the locally
configured maximum (`cfg.ProtocolVersion`, set in `newPeerBase`). -/
structure HandshakeState where
  versionKnown : Bool
  protocolVersion : Nat
  advertisedProtoVer : Nat
  services : Nat
  userAgent : String
  lastBlock : Int
  startingHeight : Int
  timeOffset : Int
  nonce : Nat
  deriving DecidableEq, Repr

/-- Result of `readRemoteVersionMsg`: the updated peer state, the reject
messages written to the remote peer, and the error (if any) that makes the
handshake fail and the peer disconnect. -/
structure HandshakeResult where
  state : HandshakeState
  written : List MsgReject
  errMsg : Option String
  deriving DecidableEq, Repr

/-- Translation of `Peer.readRemoteVersionMsg`, given that the next message
read is a version message `msg` (the non-version and read-error branches
are not modelled; no claim concerns them).  `selfConnection` captures
`!AllowSelfConns && SentNonces.Exists(msg.Nonce)`; `onVersionReject` is the
result of the user-supplied `OnVersion` listener (`none` when no listener
is configured or the listener returns nil); `now` is the local unix time.
The source order is: early-return on a repeated version, self-connection
check, negotiated-field updates, the `OnVersion` callback, and only then
the minimum-acceptable-version check. -/
def readRemoteVersionMsg (s : HandshakeState) (msg : MsgVersion)
    (selfConnection : Bool) (onVersionReject : Option MsgReject) (now : Int) :
    HandshakeResult :=
  if s.versionKnown then ⟨s, [], none⟩
  else if selfConnection then ⟨s, [], some "disconnecting peer connected to self"⟩
  else
    let adv := uint32Cast msg.protocolVersion
    let s1 : HandshakeState :=
      { versionKnown := true
        protocolVersion := minUint32 s.protocolVersion adv
        advertisedProtoVer := adv
        services := msg.services
        userAgent := msg.userAgent
        lastBlock := msg.lastBlock
        startingHeight := msg.lastBlock
        timeOffset := msg.timestamp - now
        nonce := msg.nonce }
    match onVersionReject with
    | some rej => ⟨s1, [rej], some rej.reason⟩
    | none =>
      if adv < minAcceptableProtocolVersion then
        ⟨s1,
          [⟨"version", RejectCode.obsolete, "protocol version must be 1 or greater"⟩],
          some "protocol version must be 1 or greater"⟩
      else ⟨s1, [], none⟩

/-- C2, counterexample: with an advertised protocol version of 0 (below
`MinAcceptableProtocolVersion`) and an `OnVersion` listener returning a
reject, the handshake writes only the listener's reject and fails before
the obsolete-version check is ever reached: no reject with code Obsolete is
produced, contradicting "the Obsolete reject is produced regardless of what
the listener would return". -/
theorem c2_obsolete_after_listener_cex :
    (readRemoteVersionMsg
        ⟨false, 70013, 0, 0, "", 0, 0, 0, 0⟩
        ⟨0, 0, 0, 1, "/agent/", 0⟩
        false (some ⟨"version", RejectCode.duplicate, "listener says no"⟩) 0).written
      = [⟨"version", RejectCode.duplicate, "listener says no"⟩] ∧
    ∀ r ∈ (readRemoteVersionMsg
        ⟨false, 70013, 0, 0, "", 0, 0, 0, 0⟩
        ⟨0, 0, 0, 1, "/agent/", 0⟩
        false (some ⟨"version", RejectCode.duplicate, "listener says no"⟩) 0).written,
      r.code ≠ RejectCode.obsolete := by
  constructor
  · rfl
  · decide

/-- C2, amended: the obsolete-version check runs only after the
user-supplied `OnVersion` listener.  When the listener produces no reject,
an advertised version below `MinAcceptableProtocolVersion` (1) makes the
handshake write a reject with code Obsolete and fail; when the listener
returns a reject, that reject is written and the handshake fails without
the Obsolete reject being produced. -/
theorem c2_obsolete_reject (s : HandshakeState) (msg : MsgVersion) (now : Int)
    (hvk : s.versionKnown = false) :
    (uint32Cast msg.protocolVersion < minAcceptableProtocolVersion →
      (readRemoteVersionMsg s msg false none now).written
          = [⟨"version", RejectCode.obsolete, "protocol version must be 1 or greater"⟩] ∧
        (readRemoteVersionMsg s msg false none now).errMsg
          = some "protocol version must be 1 or greater") ∧
    (∀ rej : MsgReject,
      (readRemoteVersionMsg s msg false (some rej) now).written = [rej] ∧
        (readRemoteVersionMsg s msg false (some rej) now).errMsg = some rej.reason) := by
  constructor
  · intro hobs
    simp [readRemoteVersionMsg, hvk, hobs]
  · intro rej
    simp [readRemoteVersionMsg, hvk]

/-- Witness for C2 at a concrete input: a fresh inbound peer receiving an
advertised version 0 with no listener gets the Obsolete reject; with a
listener reject it gets exactly that reject. -/
theorem c2_obsolete_reject_witness :
    (readRemoteVersionMsg ⟨false, 70013, 0, 0, "", 0, 0, 0, 0⟩
        ⟨0, 9, 100, 1, "/agent/", 5⟩ false none 40).written
      = [⟨"version", RejectCode.obsolete, "protocol version must be 1 or greater"⟩] ∧
    (readRemoteVersionMsg ⟨false, 70013, 0, 0, "", 0, 0, 0, 0⟩
        ⟨0, 9, 100, 1, "/agent/", 5⟩ false
        (some ⟨"version", RejectCode.invalid, "nope"⟩) 40).written
      = [⟨"version", RejectCode.invalid, "nope"⟩] := by
  constructor
  · exact ((c2_obsolete_reject ⟨false, 70013, 0, 0, "", 0, 0, 0, 0⟩
      ⟨0, 9, 100, 1, "/agent/", 5⟩ 40 rfl).1 (by decide)).1
  · exact ((c2_obsolete_reject ⟨false, 70013, 0, 0, "", 0, 0, 0, 0⟩
      ⟨0, 9, 100, 1, "/agent/", 5⟩ 40 rfl).2
        ⟨"version", RejectCode.invalid, "nope"⟩).1

/-- C6: after `readRemoteVersionMsg` accepts a remote version message, the
peer's negotiated protocol version is the minimum of the locally configured
maximum and the advertised version, its services and user-agent equal the
message fields, its starting height and last block both equal the message's
LastBlock, and its time offset is the message timestamp in unix seconds
minus the local current unix time. -/
theorem c6_negotiated_fields (s : HandshakeState) (msg : MsgVersion)
    (onVersionReject : Option MsgReject) (now : Int)
    (hvk : s.versionKnown = false)
    (hok : (readRemoteVersionMsg s msg false onVersionReject now).errMsg = none) :
    (readRemoteVersionMsg s msg false onVersionReject now).state.protocolVersion
        = minUint32 s.protocolVersion (uint32Cast msg.protocolVersion) ∧
      (readRemoteVersionMsg s msg false onVersionReject now).state.advertisedProtoVer
        = uint32Cast msg.protocolVersion ∧
      (readRemoteVersionMsg s msg false onVersionReject now).state.services = msg.services ∧
      (readRemoteVersionMsg s msg false onVersionReject now).state.userAgent = msg.userAgent ∧
      (readRemoteVersionMsg s msg false onVersionReject now).state.startingHeight = msg.lastBlock ∧
      (readRemoteVersionMsg s msg false onVersionReject now).state.lastBlock = msg.lastBlock ∧
      (readRemoteVersionMsg s msg false onVersionReject now).state.timeOffset
        = msg.timestamp - now := by
  rcases onVersionReject with _ | rej
  · by_cases hobs : uint32Cast msg.protocolVersion < minAcceptableProtocolVersion
    · simp [readRemoteVersionMsg, hvk, hobs] at hok
    · simp [readRemoteVersionMsg, hvk, hobs]
  · simp [readRemoteVersionMsg, hvk] at hok

/-- Witness for C6 at a concrete input: a fresh peer with local maximum
70013 accepting an advertised version 70001 negotiates 70001 and copies the
message fields. -/
theorem c6_negotiated_fields_witness :
    (readRemoteVersionMsg ⟨false, 70013, 0, 0, "", 0, 0, 0, 0⟩
        ⟨70001, 9, 100, 1, "/agent/", 5⟩ false none 40).state.protocolVersion = 70001 ∧
    (readRemoteVersionMsg ⟨false, 70013, 0, 0, "", 0, 0, 0, 0⟩
        ⟨70001, 9, 100, 1, "/agent/", 5⟩ false none 40).state.timeOffset = 60 := by
  have h := c6_negotiated_fields ⟨false, 70013, 0, 0, "", 0, 0, 0, 0⟩
    ⟨70001, 9, 100, 1, "/agent/", 5⟩ none 40 rfl (by decide)
  exact ⟨h.1.trans (by decide), h.2.2.2.2.2.2.trans (by decide)⟩

/-- The duplicate-suppression state of `PushGetBlocksMsg`
(`prevGetBlocksBegin`/`prevGetBlocksStop`, nil-able hash pointers) together
with the getblocks messages queued via `QueueMessage`, each recorded as its
(block locator, stop hash) content.  Modelled from the spec where the
`wire.MsgGetBlocks` constructor is concerned: the `wire` package
implementation is not among the provided source files and the spec states
no failure condition for assembling a getblocks request, so
`AddBlockLocatorHash` is modelled as always succeeding. -/
structure GetBlocksState where
  prevGetBlocksBegin : Option Nat
  prevGetBlocksStop : Option Nat
  queuedGetBlocks : List (List Nat × Nat)
  deriving DecidableEq, Repr

/-- Translation of `Peer.PushGetBlocksMsg`: extract the begin hash from the
locator (if non-empty), skip queueing when both previous hashes are
recorded and equal the new pair, otherwise queue the message and record the
pair.  Returns the new state and the error (`none` on success, as in the
source where duplicates return nil). -/
def pushGetBlocksMsg (s : GetBlocksState) (locator : List Nat) (stopHash : Nat) :
    GetBlocksState × Option String :=
  let beginHash := locator.head?
  let isDuplicate := s.prevGetBlocksStop.isSome ∧ s.prevGetBlocksBegin.isSome ∧
    beginHash.isSome ∧ some stopHash = s.prevGetBlocksStop ∧
    beginHash = s.prevGetBlocksBegin
  if isDuplicate then (s, none)
  else
    ({ prevGetBlocksBegin := beginHash
       prevGetBlocksStop := some stopHash
       queuedGetBlocks := s.queuedGetBlocks ++ [(locator, stopHash)] }, none)

/-- C4: two consecutive calls to `PushGetBlocksMsg` with the same non-empty
locator head and the same stop hash, starting from a state that does not
already record that (begin, stop) pair, queue exactly one getblocks
message: the first call queues it and records the pair, the second queues
nothing, and both calls return success. -/
theorem c4_getblocks_dedup (s : GetBlocksState) (locator : List Nat) (stopHash : Nat)
    (hne : locator ≠ [])
    (hfresh : s.prevGetBlocksBegin ≠ locator.head? ∨ s.prevGetBlocksStop ≠ some stopHash) :
    (pushGetBlocksMsg s locator stopHash).2 = none ∧
    (pushGetBlocksMsg s locator stopHash).1.queuedGetBlocks
        = s.queuedGetBlocks ++ [(locator, stopHash)] ∧
    (pushGetBlocksMsg s locator stopHash).1.prevGetBlocksBegin = locator.head? ∧
    (pushGetBlocksMsg s locator stopHash).1.prevGetBlocksStop = some stopHash ∧
    (pushGetBlocksMsg (pushGetBlocksMsg s locator stopHash).1 locator stopHash).2 = none ∧
    (pushGetBlocksMsg (pushGetBlocksMsg s locator stopHash).1 locator stopHash).1
        = (pushGetBlocksMsg s locator stopHash).1 := by
  have hnotdup : ¬ (s.prevGetBlocksStop.isSome ∧ s.prevGetBlocksBegin.isSome ∧
      (locator.head?).isSome ∧ some stopHash = s.prevGetBlocksStop ∧
      locator.head? = s.prevGetBlocksBegin) := by
    rintro ⟨-, -, -, h4, h5⟩
    rcases hfresh with hf | hf
    · exact hf h5.symm
    · exact hf h4.symm
  have hfirst : pushGetBlocksMsg s locator stopHash =
      ({ prevGetBlocksBegin := locator.head?
         prevGetBlocksStop := some stopHash
         queuedGetBlocks := s.queuedGetBlocks ++ [(locator, stopHash)] }, none) := by
    simp only [pushGetBlocksMsg]
    rw [if_neg hnotdup]
  have hheadsome : (locator.head?).isSome := by
    cases locator with
    | nil => exact absurd rfl hne
    | cons a l => simp
  have hsecond : pushGetBlocksMsg
      ({ prevGetBlocksBegin := locator.head?
         prevGetBlocksStop := some stopHash
         queuedGetBlocks := s.queuedGetBlocks ++ [(locator, stopHash)] } : GetBlocksState)
      locator stopHash =
      ({ prevGetBlocksBegin := locator.head?
         prevGetBlocksStop := some stopHash
         queuedGetBlocks := s.queuedGetBlocks ++ [(locator, stopHash)] }, none) := by
    simp only [pushGetBlocksMsg]
    rw [if_pos (by simp [hheadsome])]
  rw [hfirst]
  rw [hsecond]
  exact ⟨rfl, rfl, rfl, rfl, rfl, rfl⟩

/-- Witness for C4 at a concrete input: on a fresh peer, pushing the same
locator and stop hash twice queues a single getblocks message and both
calls succeed. -/
theorem c4_getblocks_dedup_witness :
    (pushGetBlocksMsg ⟨none, none, []⟩ [11, 12] 99).1.queuedGetBlocks = [([11, 12], 99)] ∧
      (pushGetBlocksMsg (pushGetBlocksMsg ⟨none, none, []⟩ [11, 12] 99).1 [11, 12] 99).1
        = (pushGetBlocksMsg ⟨none, none, []⟩ [11, 12] 99).1 := by
  have h := c4_getblocks_dedup ⟨none, none, []⟩ [11, 12] 99 (by decide)
    (Or.inl (by decide))
  exact ⟨h.2.1.trans (by decide), h.2.2.2.2.2⟩

/-- wire.NetAddress — only identity matters to `PushAddrMsg`, so the
fields are reduced to the ones distinguishing addresses. -/
structure NetAddress where
  ip : Nat
  port : Nat
  deriving DecidableEq, Repr, Inhabited

/-- One iteration of the partial Fisher-Yates shuffle in `PushAddrMsg`:
swap positions `i` and `j := i + rand.Intn(count-i)` of the list.  The
random draw is an oracle `r`; its value is reduced modulo `count - i`,
which ranges over exactly the values `rand.Intn` can return. -/
def addrSwap (r : Nat → Nat) (count : Nat) (l : List NetAddress) (i : Nat) : List NetAddress :=
  let j := i + r i % (count - i)
  (l.set i (l.getD j default)).set j (l.getD i default)

/-- The first `k` iterations (`i = 0, …, k-1`) of the shuffle loop of
`PushAddrMsg`. -/
def addrShuffle (r : Nat → Nat) (count : Nat) (l : List NetAddress) : Nat → List NetAddress
  | 0 => l
  | k + 1 => addrSwap r count (addrShuffle r count l k) k

/-- Translation of `Peer.PushAddrMsg`: an empty list sends nothing and
returns the empty result; otherwise the message's address list is a copy of
the input, shuffled (first `MaxAddrPerMsg` positions) and truncated to
`MaxAddrPerMsg` entries when the input exceeds that limit.  The first
component is the queued addr message's address list (`none` when no message
is queued), the second is the returned slice; the source returns a nil
error in every case. -/
def pushAddrMsg (r : Nat → Nat) (addresses : List NetAddress) :
    Option (List NetAddress) × List NetAddress :=
  if addresses.length = 0 then (none, [])
  else
    let addrList :=
      if maxAddrPerMsg < addresses.length then
        (addrShuffle r addresses.length addresses maxAddrPerMsg).take maxAddrPerMsg
      else addresses
    (some addrList, addrList)

/-- Swapping preserves the length of the list. -/
theorem addrSwap_length (r : Nat → Nat) (count : Nat) (l : List NetAddress) (i : Nat) :
    (addrSwap r count l i).length = l.length := by
  simp [addrSwap]

/-- Shuffling preserves the length of the list. -/
theorem addrShuffle_length (r : Nat → Nat) (count : Nat) (l : List NetAddress) :
    ∀ k, (addrShuffle r count l k).length = l.length := by
  intro k
  induction k with
  | zero => rfl
  | succ k ih => rw [addrShuffle, addrSwap_length, ih]

/-- With in-range indices, every element of the swapped list is an element
of the original list. -/
theorem addrSwap_mem (r : Nat → Nat) (count : Nat) (l : List NetAddress) (i : Nat)
    (hlen : l.length = count) (hi : i < count) :
    ∀ x ∈ addrSwap r count l i, x ∈ l := by
  intro x hx
  have hij : i + r i % (count - i) < l.length := by
    have := Nat.mod_lt (r i) (show 0 < count - i by omega)
    omega
  have hi2 : i < l.length := by omega
  have ha : l.getD (i + r i % (count - i)) default ∈ l := by
    rw [List.getD_eq_getElem l default hij]
    exact List.getElem_mem hij
  have hb : l.getD i default ∈ l := by
    rw [List.getD_eq_getElem l default hi2]
    exact List.getElem_mem hi2
  rcases List.mem_or_eq_of_mem_set hx with hx1 | rfl
  · rcases List.mem_or_eq_of_mem_set hx1 with hx2 | rfl
    · exact hx2
    · exact ha
  · exact hb

/-- Every element of the partially shuffled list is an element of the
original list. -/
theorem addrShuffle_mem (r : Nat → Nat) (count : Nat) (l : List NetAddress)
    (hlen : l.length = count) :
    ∀ k, k ≤ count → ∀ x ∈ addrShuffle r count l k, x ∈ l := by
  intro k
  induction k with
  | zero => exact fun _ x hx => hx
  | succ k ih =>
    intro hk x hx
    have hsl : (addrShuffle r count l k).length = count := by
      rw [addrShuffle_length r count l k, hlen]
    have := addrSwap_mem r count (addrShuffle r count l k) k hsl (by omega) x hx
    exact ih (by omega) x this

/-- C7: `PushAddrMsg` on an empty list queues nothing and returns the empty
result; on a list of at most `MaxAddrPerMsg` (1000) addresses it queues a
single addr message holding exactly the given addresses in order and
returns that list; on a longer list the queued message and the returned
slice are one and the same list of exactly 1000 addresses, all drawn from
the given ones. -/
theorem c7_push_addr (r : Nat → Nat) (addresses : List NetAddress) :
    (addresses = [] → pushAddrMsg r addresses = (none, [])) ∧
    (addresses ≠ [] → addresses.length ≤ maxAddrPerMsg →
      pushAddrMsg r addresses = (some addresses, addresses)) ∧
    (maxAddrPerMsg < addresses.length →
      ∃ sent : List NetAddress,
        pushAddrMsg r addresses = (some sent, sent) ∧
        sent.length = maxAddrPerMsg ∧
        ∀ x ∈ sent, x ∈ addresses) := by
  refine ⟨?_, ?_, ?_⟩
  · intro h
    simp [pushAddrMsg, h]
  · intro h1 h2
    have hlz : ¬ addresses.length = 0 := by
      simpa [List.length_eq_zero] using h1
    have hno : ¬ maxAddrPerMsg < addresses.length := by omega
    simp [pushAddrMsg, hlz, hno]
  · intro h
    have hlz : ¬ addresses.length = 0 := by omega
    refine ⟨(addrShuffle r addresses.length addresses maxAddrPerMsg).take maxAddrPerMsg,
      ?_, ?_, ?_⟩
    · simp [pushAddrMsg, hlz, h]
    · rw [List.length_take, addrShuffle_length]
      omega
    · intro x hx
      exact addrShuffle_mem r addresses.length addresses rfl maxAddrPerMsg (by omega) x
        (List.mem_of_mem_take hx)

/-- Witness for C7 at concrete inputs: the empty list yields nothing, and a
two-address list (within the limit) is forwarded unchanged. -/
theorem c7_push_addr_witness :
    pushAddrMsg (fun _ => 0) [] = (none, []) ∧
      pushAddrMsg (fun _ => 0) [⟨1, 2⟩, ⟨3, 4⟩] = (some [⟨1, 2⟩, ⟨3, 4⟩], [⟨1, 2⟩, ⟨3, 4⟩]) := by
  constructor
  · exact (c7_push_addr (fun _ => 0) []).1 rfl
  · exact (c7_push_addr (fun _ => 0) [⟨1, 2⟩, ⟨3, 4⟩]).2.1 (by decide) (by decide)

/-- The kinds of incoming message the input handler cases on that matter
here; every other command dispatches to its optional listener and
continues. -/
inductive InCommand where
  | versionCmd
  | verackCmd
  | otherCmd
  deriving DecidableEq, Repr

/-- Observable actions of one input-handler iteration. -/
inductive InAction where
  | pushRejectAction (cmd : String) (code : RejectCode) (reason : String) (wait : Bool)
  | invokeOnVerAck
  deriving DecidableEq, Repr

/-- The peer flags the input handler reads and writes. -/
structure InFlags where
  verAckReceived : Bool
  sendHeadersPreferred : Bool
  deriving DecidableEq, Repr

/-- Translation of the message dispatch of one iteration of
`Peer.inHandler` (after the handshake): returns the updated flags, the
actions performed, and whether the loop continues (`false` means
`break out`, after which the handler stops the idle timer, calls
`Disconnect` and exits).  A version message is answered with a
duplicate-version reject and ends the loop; a verack sets
`verAckReceived` once and invokes the listener, and is dropped silently
when the flag is already latched; other messages leave the flags alone and
continue. -/
def inHandlerStep (f : InFlags) : InCommand → InFlags × List InAction × Bool
  | InCommand.versionCmd =>
    (f, [InAction.pushRejectAction "version" RejectCode.duplicate
      "duplicate version message" true], false)
  | InCommand.verackCmd =>
    if f.verAckReceived then (f, [], true)
    else ({ f with verAckReceived := true }, [InAction.invokeOnVerAck], true)
  | InCommand.otherCmd => (f, [], true)

/-- C8: after handshake completion a duplicate verack leaves the peer state
unchanged, performs no action and keeps the input loop running
(`verAckReceived` stays latched), whereas any received version message
causes a reject with code Duplicate and reason "duplicate version message"
(sent with wait) and ends the input loop, disconnecting the peer. -/
theorem c8_duplicate_messages (f : InFlags) (hv : f.verAckReceived = true) :
    inHandlerStep f InCommand.verackCmd = (f, [], true) ∧
    ∀ g : InFlags, inHandlerStep g InCommand.versionCmd =
      (g, [InAction.pushRejectAction "version" RejectCode.duplicate
        "duplicate version message" true], false) := by
  constructor
  · simp [inHandlerStep, hv]
  · intro g
    rfl

/-- Witness for C8 at a concrete input: a peer with the verack latched
drops a second verack and rejects a second version message. -/
theorem c8_duplicate_messages_witness :
    inHandlerStep ⟨true, false⟩ InCommand.verackCmd = (⟨true, false⟩, [], true) ∧
      inHandlerStep ⟨true, false⟩ InCommand.versionCmd =
        (⟨true, false⟩, [InAction.pushRejectAction "version" RejectCode.duplicate
          "duplicate version message" true], false) := by
  exact ⟨(c8_duplicate_messages ⟨true, false⟩ rfl).1,
    (c8_duplicate_messages ⟨true, false⟩ rfl).2 ⟨true, false⟩⟩

/-- The peer fields `Disconnect` touches: the atomic `disconnect` counter,
the `connected` flag, and counters of the observable effects (closing the
connection, firing the quit signal). -/
structure DisconnectState where
  disconnectCount : Nat
  connected : Bool
  connCloseCount : Nat
  quitFireCount : Nat
  deriving DecidableEq, Repr

/-- Translation of `Peer.Disconnect`: atomically increment the disconnect
counter; any call that does not see the value 1 returns immediately;
the first call closes the connection when connected and fires the quit
signal. -/
def disconnectStep (s : DisconnectState) : DisconnectState :=
  let d := s.disconnectCount + 1
  if d ≠ 1 then { s with disconnectCount := d }
  else
    { disconnectCount := d
      connected := s.connected
      connCloseCount := if s.connected then s.connCloseCount + 1 else s.connCloseCount
      quitFireCount := s.quitFireCount + 1 }

/-- `n` successive calls to `Disconnect`. -/
def applyDisconnects : Nat → DisconnectState → DisconnectState
  | 0, s => s
  | n + 1, s => applyDisconnects n (disconnectStep s)

/-- The observable part of the disconnect state: whether the disconnect
flag is set (the counter is non-zero), the connected flag, and the two
effect counters. -/
def disconnectObs (s : DisconnectState) : Bool × Bool × Nat × Nat :=
  (decide (s.disconnectCount ≠ 0), s.connected, s.connCloseCount, s.quitFireCount)

/-- A call on an already-disconnecting peer only bumps the hidden counter:
the observables do not change. -/
theorem disconnectStep_noop (s : DisconnectState) (h : s.disconnectCount ≠ 0) :
    disconnectObs (disconnectStep s) = disconnectObs s ∧
      (disconnectStep s).disconnectCount = s.disconnectCount + 1 := by
  have hne : s.disconnectCount + 1 ≠ 1 := by omega
  constructor
  · simp [disconnectStep, hne, disconnectObs, h]
  · simp [disconnectStep, hne]

/-- Iterating from a state with the flag already set leaves the
observables unchanged. -/
theorem applyDisconnects_obs (n : Nat) :
    ∀ s : DisconnectState, s.disconnectCount ≠ 0 →
      disconnectObs (applyDisconnects n s) = disconnectObs s ∧
        (applyDisconnects n s).disconnectCount = s.disconnectCount + n := by
  induction n with
  | zero => exact fun s _ => ⟨rfl, rfl⟩
  | succ n ih =>
    intro s h
    obtain ⟨h1, h2⟩ := disconnectStep_noop s h
    obtain ⟨h3, h4⟩ := ih (disconnectStep s) (by omega)
    refine ⟨h3.trans h1, ?_⟩
    rw [applyDisconnects, h4, h2]
    omega

/-- C9: `Disconnect` is idempotent: starting from a fresh peer, any
positive number of calls sets the disconnect flag (it transitions from
unset to set exactly once), closes the connection exactly once when the
peer was connected (never otherwise), fires the quit signal exactly once,
and every call after the first changes no observable state. -/
theorem c9_disconnect_idempotent (s : DisconnectState) (n : Nat)
    (hd : s.disconnectCount = 0) (hc : s.connCloseCount = 0)
    (hq : s.quitFireCount = 0) (hn : 1 ≤ n) :
    disconnectObs (applyDisconnects n s) =
      (true, s.connected, if s.connected then 1 else 0, 1) ∧
    ∀ k : Nat, 1 ≤ k →
      disconnectObs (applyDisconnects (k + 1) s) = disconnectObs (applyDisconnects k s) := by
  have hfirst : disconnectStep s =
      { disconnectCount := 1
        connected := s.connected
        connCloseCount := if s.connected then 1 else 0
        quitFireCount := 1 } := by
    simp [disconnectStep, hd, hc, hq]
  have hsplit : ∀ m : Nat, applyDisconnects (m + 1) s = applyDisconnects m (disconnectStep s) := by
    intro m
    rfl
  constructor
  · obtain ⟨m, rfl⟩ : ∃ m, n = m + 1 := ⟨n - 1, by omega⟩
    rw [hsplit, hfirst]
    exact (applyDisconnects_obs m _ (by simp)).1
  · intro k hk
    obtain ⟨m, rfl⟩ : ∃ m, k = m + 1 := ⟨k - 1, by omega⟩
    rw [hsplit (m + 1), hsplit m, hfirst]
    rw [(applyDisconnects_obs (m + 1) _ (by simp)).1, (applyDisconnects_obs m _ (by simp)).1]

/-- Witness for C9 at a concrete input: three calls on a fresh connected
peer close the connection and fire quit once, and the third call changes
nothing over the second. -/
theorem c9_disconnect_idempotent_witness :
    disconnectObs (applyDisconnects 3 ⟨0, true, 0, 0⟩) = (true, true, 1, 1) ∧
      disconnectObs (applyDisconnects 3 ⟨0, true, 0, 0⟩) =
        disconnectObs (applyDisconnects 2 ⟨0, true, 0, 0⟩) := by
  have h := c9_disconnect_idempotent ⟨0, true, 0, 0⟩ 3 rfl rfl rfl (by omega)
  exact ⟨h.1.trans (by decide), h.2 2 (by omega)⟩

/-- The peer fields `QueueMessageWithEncoding` reads, plus the output queue
it appends to.  Messages are abstracted to their identity together with the
requested wire encoding and whether a done channel was supplied. -/
structure QueuePeerState where
  connected : Bool
  disconnectFlag : Bool
  outputQueue : List (Nat × Nat × Bool)
  deriving DecidableEq, Repr

/-- Translation of `Peer.Connected`: the peer is connected and not
disconnecting. -/
def connectedFn (s : QueuePeerState) : Bool :=
  s.connected && !s.disconnectFlag

/-- Translation of `Peer.QueueMessageWithEncoding`: when the peer is not
connected, the message is not queued and one completion signal is delivered
asynchronously on the done channel when the caller supplied one; otherwise
the message enters the output queue.  The second component counts the
completion signals delivered by the call itself. -/
def queueMessageWithEncoding (s : QueuePeerState) (msg encoding : Nat)
    (hasDoneChan : Bool) : QueuePeerState × Nat :=
  if !(connectedFn s) then
    (s, if hasDoneChan then 1 else 0)
  else
    ({ s with outputQueue := s.outputQueue ++ [(msg, encoding, hasDoneChan)] }, 0)

/-- Translation of `Peer.QueueMessage`: delegates with the base encoding
(0). -/
def queueMessage (s : QueuePeerState) (msg : Nat) (hasDoneChan : Bool) :
    QueuePeerState × Nat :=
  queueMessageWithEncoding s msg 0 hasDoneChan

/-- C10: queueing a message on a peer that is not connected (never
connected, or already disconnecting) leaves the output queue untouched and
delivers exactly one completion signal when a done channel was supplied
(zero otherwise), for `QueueMessageWithEncoding` and so also for
`QueueMessage`. -/
theorem c10_queue_dead_peer (s : QueuePeerState) (msg encoding : Nat) (d : Bool)
    (h : s.connected = false ∨ s.disconnectFlag = true) :
    (queueMessageWithEncoding s msg encoding d).1 = s ∧
    (queueMessageWithEncoding s msg encoding d).1.outputQueue = s.outputQueue ∧
    (queueMessageWithEncoding s msg encoding d).2 = (if d then 1 else 0) ∧
    queueMessage s msg d = queueMessageWithEncoding s msg 0 d := by
  have hnc : connectedFn s = false := by
    rcases h with h | h <;> simp [connectedFn, h]
  refine ⟨?_, ?_, ?_, rfl⟩ <;> simp [queueMessageWithEncoding, hnc]

/-- Witness for C10 at a concrete input: a disconnecting peer with a
supplied done channel keeps its queue and signals once. -/
theorem c10_queue_dead_peer_witness :
    (queueMessageWithEncoding ⟨true, true, []⟩ 42 0 true).1.outputQueue = [] ∧
      (queueMessageWithEncoding ⟨true, true, []⟩ 42 0 true).2 = 1 := by
  have h := c10_queue_dead_peer ⟨true, true, []⟩ 42 0 true (Or.inr rfl)
  exact ⟨h.2.1, h.2.2.1.trans (by decide)⟩

end PeerSpec
